import Mathlib

/-!
Shallow embedding of `invenio_sipstore/archivers/utils.py` and
`invenio_sipstore/config.py` from the invenio-sipstore repository,
together with proofs about the filename formatters, the archive
directory builder and the default configuration.

Strings are modelled through their character lists (`String.data`);
Python's stable ascending `sorted` is modelled by `List.insertionSort`
with the comparator used by the source's sort key.
-/

namespace SIPStore

/-! ### Embedding of `werkzeug.utils.secure_filename` (external callee) -/

/-- Characters kept by the werkzeug sanitizer's strip regex
`[^A-Za-z0-9_.-]` (ASCII letters, digits, underscore, dot, dash). -/
def allowedChar (c : Char) : Bool :=
  c.isAlpha || c.isDigit || c == '_' || c == '.' || c == '-'

/-- Python `str.split()` with no argument: split into maximal runs of
non-whitespace characters, discarding the whitespace. `acc` is the
current word accumulated in reverse. -/
def pyWordsGo : List Char → List Char → List (List Char)
  | [], acc => if acc = [] then [] else [acc.reverse]
  | c :: cs, acc =>
    if c.isWhitespace then
      if acc = [] then pyWordsGo cs [] else acc.reverse :: pyWordsGo cs []
    else pyWordsGo cs (c :: acc)

/-- Python `str.strip("._")`: remove leading and trailing `'.'` and `'_'`
characters. -/
def stripDotUnderscore (l : List Char) : List Char :=
  ((l.dropWhile fun c => c == '.' || c == '_').reverse.dropWhile
    fun c => c == '.' || c == '_').reverse

/-- Embedding of `werkzeug.utils.secure_filename` on a POSIX system, on
character lists: NFKD-normalize then ASCII-encode with `ignore`
(modelled as dropping the non-ASCII code points), replace the path
separator `'/'` by a space, split on whitespace and rejoin with `'_'`
(`"_".join(filename.split())`), delete every character outside
`[A-Za-z0-9_.-]`, and strip `'.'` and `'_'` from both ends. -/
def secureFilenameData (l : List Char) : List Char :=
  let ascii := l.filter fun c => c.toNat < 128
  let replaced := ascii.map fun c => if c == '/' then ' ' else c
  let joined := List.intercalate ['_'] (pyWordsGo replaced [])
  stripDotUnderscore (joined.filter allowedChar)

/-- `werkzeug.utils.secure_filename` on `String`. -/
def secure_filename (s : String) : String :=
  ⟨secureFilenameData s.data⟩

/-! ### Embedding of `invenio_sipstore/archivers/utils.py` -/

/-- Embedding of `_secure_filename`: call `secure_filename()` and replace
dashes with underscores (a one-character `str.replace`, i.e. a
character-wise substitution). -/
def _secure_filename (s : String) : String :=
  ⟨(secure_filename s).data.map fun c => if c == '-' then '_' else c⟩

/-- A `SIPFile`: the stable file identity (`str` of the file UUID; on
canonical equal-length UUID strings the lexicographic character order
used here agrees with the numeric order Python uses to sort UUIDs) and
the SIP-relative `filepath`. -/
structure SIPFile where
  file_id : String
  filepath : String
deriving DecidableEq

/-- A `SIP`: the stable identity `str(sip.id)` and its payload files
`sip_files`. -/
structure SIP where
  id : String
  sip_files : List SIPFile
deriving DecidableEq

/-- Lexicographic order on character lists, used to compare file
identities the way Python's `sorted` compares the sort keys. -/
def lexLE : List Char → List Char → Bool
  | [], _ => true
  | _ :: _, [] => false
  | a :: as, b :: bs => if a = b then lexLE as bs else decide (a < b)

/-- The sort key comparison of
`sorted(sipfile.sip.sip_files, key=lambda sf: sf.file_id)`. -/
def sipLE (a b : SIPFile) : Prop :=
  lexLE a.file_id.data b.file_id.data = true

instance : DecidableRel sipLE := fun a b =>
  instDecidableEqBool (lexLE a.file_id.data b.file_id.data) true

/-- Embedding of `secure_sipfile_name_formatter`. The Python function
reaches the parent SIP through `sipfile.sip`; the embedding passes that
SIP explicitly. `sorted(...)` is a stable ascending sort by the file
identity, modelled by `List.insertionSort sipLE`, and
`colliding_siblings.index(sipfile)` is `List.indexOf`. The f-string
`f"{i + 1}-{filename}"` renders the index in decimal (`Nat.repr`), and
`filename or "-"` yields `"-"` exactly when `filename` is empty. -/
def secure_sipfile_name_formatter (sip : SIP) (sipfile : SIPFile) : String :=
  let filename := _secure_filename sipfile.filepath
  let siblings := List.insertionSort sipLE sip.sip_files
  let colliding_siblings :=
    siblings.filter fun sf => _secure_filename sf.filepath == filename
  if 1 < colliding_siblings.length then
    Nat.repr (colliding_siblings.indexOf sipfile + 1) ++ "-" ++ filename
  else
    if filename == "" then "-" else filename

/-- Embedding of `secure_uuid_sipfile_name_formatter`:
`f"{sipfile.file_id}-{secure_filename(sipfile.filepath)}"`. It reads
only the given file, never its siblings. -/
def secure_uuid_sipfile_name_formatter (sipfile : SIPFile) : String :=
  sipfile.file_id ++ "-" ++ secure_filename sipfile.filepath

/-- Embedding of `chunks(iterable, n)` for an integer `n`: the loop
`for i in range(0, len(iterable), n): yield iterable[i : i + n]`.
For `n = 0` Python's `range` raises `ValueError`; the embedding returns
`[]` there and every claim only concerns positive `n`. -/
def chunksInt (l : List Char) (n : Nat) : List (List Char) :=
  if h : n = 0 ∨ l = [] then []
  else l.take n :: chunksInt (l.drop n) n
termination_by l.length
decreasing_by
  have h1 : n ≠ 0 := fun hn => h (Or.inl hn)
  have h2 : l ≠ [] := fun hl => h (Or.inr hl)
  have h3 : 0 < l.length := List.length_pos.mpr h2
  simp only [List.length_drop]
  omega

/-- The loop of `chunks(iterable, n)` for a list `n`: a running offset
`acc` starting at `0`; for each chunk size `i`, while `acc` is still
inside the iterable, yield `iterable[acc : acc + i]` and advance `acc`
by `i`. -/
def chunksListGo (l : List Char) : Nat → List Nat → List (List Char)
  | _, [] => []
  | acc, i :: rest =>
    if acc < l.length then
      (l.drop acc).take i :: chunksListGo l (acc + i) rest
    else chunksListGo l acc rest

/-- Embedding of `chunks(iterable, n)` for a list `n`: when
`sum(n) < len(iterable)` the Python code appends `len(iterable)` to `n`
before looping (the in-place mutation of the caller's list is dropped;
only the yielded chunks matter here). -/
def chunksList (l : List Char) (n : List Nat) : List (List Char) :=
  chunksListGo l 0 (if n.sum < l.length then n ++ [l.length] else n)

/-- Embedding of `default_archive_directory_builder`:
`list(chunks(str(sip.id), [2, 2]))`, each chunk back as a string. -/
def default_archive_directory_builder (sip : SIP) : List String :=
  (chunksList sip.id.data [2, 2]).map fun l => (⟨l⟩ : String)

/-! ### Embedding of `invenio_sipstore/config.py` -/

/-- Embedding of `SIPSTORE_BAGIT_TAGS`: Python `None` values (the tags
computed at write time) become `Option.none`, static strings become
`some`. -/
def SIPSTORE_BAGIT_TAGS : List (String × Option String) :=
  [("Source-Organization", some "European Organization for Nuclear Research"),
   ("Organization-Address", some "CERN, CH-1211 Geneva 23, Switzerland"),
   ("Bagging-Date", none),
   ("Payload-Oxum", none),
   ("External-Identifier", none),
   ("External-Description", some "BagIt archive of SIP.")]

/-- Embedding of `SIPSTORE_ARCHIVER_SIPFILE_NAME_FORMATTER`: the dotted
module path that the configuration names as the default payload
filename formatter. -/
def SIPSTORE_ARCHIVER_SIPFILE_NAME_FORMATTER : String :=
  "invenio_sipstore.archivers.utils.default_sipfile_name_formatter"

/-- The names of all module-level functions defined in
`invenio_sipstore/archivers/utils.py`. -/
def archiversUtilsFunctionNames : List String :=
  ["_secure_filename", "chunks", "default_archive_directory_builder",
   "default_sipmetadata_name_formatter", "simple_sipfile_name_formatter",
   "secure_sipfile_name_formatter", "secure_uuid_sipfile_name_formatter"]

/-! ### Order facts for the sort comparator -/

theorem lexLE_total : ∀ (a b : List Char), lexLE a b = true ∨ lexLE b a = true
  | [], _ => Or.inl rfl
  | _ :: _, [] => Or.inr rfl
  | a :: as, b :: bs => by
    by_cases hab : a = b
    · subst hab
      simpa only [lexLE, if_pos rfl] using lexLE_total as bs
    · rcases lt_or_gt_of_ne hab with h | h
      · exact Or.inl (by simp [lexLE, hab, h])
      · have hba : ¬b = a := fun e => hab e.symm
        have h' : b < a := h
        exact Or.inr (by simp [lexLE, hba, h'])

theorem lexLE_trans : ∀ (a b c : List Char),
    lexLE a b = true → lexLE b c = true → lexLE a c = true
  | [], _, _, _, _ => rfl
  | _ :: _, [], _, h1, _ => by simp [lexLE] at h1
  | _ :: _, _ :: _, [], _, h2 => by simp [lexLE] at h2
  | a :: as, b :: bs, c :: cs, h1, h2 => by
    by_cases hab : a = b <;> by_cases hbc : b = c
    · subst hab; subst hbc
      simp only [lexLE, if_pos rfl] at h1 h2 ⊢
      exact lexLE_trans as bs cs h1 h2
    · subst hab
      simp only [lexLE, if_pos rfl] at h1
      simpa only [lexLE, if_neg hbc] using h2
    · subst hbc
      simp only [lexLE, if_pos rfl] at h2
      simpa only [lexLE, if_neg hab] using h1
    · simp only [lexLE, if_neg hab, decide_eq_true_eq] at h1
      simp only [lexLE, if_neg hbc, decide_eq_true_eq] at h2
      have hac : a < c := lt_trans h1 h2
      simp [lexLE, ne_of_lt hac, hac]

theorem lexLE_antisymm : ∀ (a b : List Char),
    lexLE a b = true → lexLE b a = true → a = b
  | [], [], _, _ => rfl
  | [], _ :: _, _, h2 => by simp [lexLE] at h2
  | _ :: _, [], h1, _ => by simp [lexLE] at h1
  | a :: as, b :: bs, h1, h2 => by
    by_cases hab : a = b
    · subst hab
      simp only [lexLE, if_pos rfl] at h1 h2
      rw [lexLE_antisymm as bs h1 h2]
    · have hba : ¬b = a := fun e => hab e.symm
      simp only [lexLE, if_neg hab, decide_eq_true_eq] at h1
      simp only [lexLE, if_neg hba, decide_eq_true_eq] at h2
      exact absurd h2 (lt_asymm h1)

instance : IsTotal SIPFile sipLE :=
  ⟨fun a b => lexLE_total a.file_id.data b.file_id.data⟩

instance : IsTrans SIPFile sipLE :=
  ⟨fun a b c h1 h2 => lexLE_trans _ _ _ h1 h2⟩

/-- Strict version of the sort key order: the key order together with
distinct file identities. Unlike `sipLE` it is antisymmetric, which
identifies the sorted arrangement of a list with pairwise-distinct file
identities uniquely. -/
def sipLT (a b : SIPFile) : Prop :=
  sipLE a b ∧ a.file_id ≠ b.file_id

instance : IsAntisymm SIPFile sipLT :=
  ⟨fun a b h1 h2 =>
    absurd (String.toList_inj.mp (lexLE_antisymm _ _ h1.1 h2.1)) h1.2⟩

/-! ### The decimal rendering `Nat.repr` used by the f-string -/

/-- Structural-recursion form of the digit list produced by
`Nat.toDigitsCore 10`. -/
def decDigits (n : Nat) : List Char :=
  if h : n / 10 = 0 then [Nat.digitChar (n % 10)]
  else decDigits (n / 10) ++ [Nat.digitChar (n % 10)]
termination_by n
decreasing_by
  have hn : n ≠ 0 := by
    intro h0
    subst h0
    simp at h
  exact Nat.div_lt_self (Nat.pos_of_ne_zero hn) (by norm_num)

theorem toDigitsCore_eq_decDigits (fuel : Nat) :
    ∀ (n : Nat) (acc : List Char), n < fuel →
      Nat.toDigitsCore 10 fuel n acc = decDigits n ++ acc := by
  induction fuel with
  | zero => exact fun n _ h => absurd h (Nat.not_lt_zero n)
  | succ f ih =>
    intro n acc h
    by_cases h0 : n / 10 = 0
    · simp [Nat.toDigitsCore, h0, decDigits]
    · have hdiv : n / 10 < n :=
        Nat.div_lt_self (Nat.pos_of_ne_zero fun h0' => h0 (by simp [h0'])) (by norm_num)
      have hlt : n / 10 < f := by omega
      simp only [Nat.toDigitsCore, if_neg h0]
      rw [ih (n / 10) _ hlt]
      conv_rhs => rw [decDigits, dif_neg h0]
      simp

theorem repr_data (n : Nat) : (Nat.repr n).data = decDigits n := by
  show (Nat.toDigits 10 n).asString.data = decDigits n
  rw [Nat.toDigits, toDigitsCore_eq_decDigits (n + 1) n [] (Nat.lt_succ_self n)]
  exact List.append_nil _

/-- Numeric value of an ASCII digit character. -/
def charVal (c : Char) : Nat := c.toNat - 48

/-- Value of a most-significant-first decimal digit list. -/
def digitsVal (l : List Char) : Nat :=
  l.foldl (fun a c => 10 * a + charVal c) 0

theorem digitsVal_append (l : List Char) (c : Char) :
    digitsVal (l ++ [c]) = 10 * digitsVal l + charVal c := by
  simp [digitsVal, List.foldl_append]

theorem charVal_digitChar (m : Nat) (h : m < 10) :
    charVal (Nat.digitChar m) = m := by
  interval_cases m <;> rfl

theorem digitChar_ne_dash (m : Nat) (h : m < 10) : Nat.digitChar m ≠ '-' := by
  interval_cases m <;> decide

theorem decDigits_val (n : Nat) : digitsVal (decDigits n) = n := by
  induction n using decDigits.induct with
  | case1 n h =>
    have h10 : n < 10 := (Nat.div_eq_zero_iff (by norm_num)).mp h
    rw [decDigits, dif_pos h]
    show 10 * 0 + charVal (Nat.digitChar (n % 10)) = n
    rw [charVal_digitChar (n % 10) (Nat.mod_lt n (by norm_num))]
    omega
  | case2 n h ih =>
    rw [decDigits, dif_neg h, digitsVal_append, ih,
      charVal_digitChar (n % 10) (Nat.mod_lt n (by norm_num))]
    exact Nat.div_add_mod n 10

theorem decDigits_inj {m n : Nat} (h : decDigits m = decDigits n) : m = n := by
  rw [← decDigits_val m, h, decDigits_val]

theorem repr_inj {m n : Nat} (h : Nat.repr m = Nat.repr n) : m = n :=
  decDigits_inj (by rw [← repr_data, ← repr_data, h])

theorem decDigits_ne_nil (n : Nat) : decDigits n ≠ [] := by
  rw [decDigits]
  split <;> simp

theorem dash_not_mem_decDigits (n : Nat) : '-' ∉ decDigits n := by
  induction n using decDigits.induct with
  | case1 n h =>
    rw [decDigits, dif_pos h]
    intro hm
    exact digitChar_ne_dash (n % 10) (Nat.mod_lt n (by norm_num))
      (List.mem_singleton.mp hm).symm
  | case2 n h ih =>
    rw [decDigits, dif_neg h]
    intro hm
    rcases List.mem_append.mp hm with hm | hm
    · exact ih hm
    · exact digitChar_ne_dash (n % 10) (Nat.mod_lt n (by norm_num))
        (List.mem_singleton.mp hm).symm

theorem dash_not_mem_repr (n : Nat) : '-' ∉ (Nat.repr n).data := by
  rw [repr_data]
  exact dash_not_mem_decDigits n

theorem repr_data_ne_nil (n : Nat) : (Nat.repr n).data ≠ [] := by
  rw [repr_data]
  exact decDigits_ne_nil n

/-! ### Dash-freeness and splitting along the first dash -/

theorem dash_not_mem_secure (s : String) :
    '-' ∉ (_secure_filename s).data := by
  intro hm
  simp only [_secure_filename] at hm
  rcases List.mem_map.mp hm with ⟨c, _, hc⟩
  by_cases h : c = '-'
  · simp [h] at hc
  · simp only [beq_iff_eq, if_neg h] at hc
    exact h hc

theorem dash_split : ∀ (xa : List Char) {ya : List Char} (xb : List Char)
    {yb : List Char}, xa ++ '-' :: ya = xb ++ '-' :: yb → '-' ∉ xa →
      '-' ∉ xb → xa = xb ∧ ya = yb
  | [], _, [], _, h, _, _ => ⟨rfl, by simpa using h⟩
  | [], _, b :: xb, _, h, _, hb => by
    simp only [List.nil_append, List.cons_append, List.cons.injEq] at h
    exact absurd (h.1 ▸ List.mem_cons_self b xb) hb
  | a :: xa, _, [], _, h, ha, _ => by
    simp only [List.nil_append, List.cons_append, List.cons.injEq] at h
    exact absurd (h.1.symm ▸ List.mem_cons_self a xa) ha
  | a :: xa, ya', b :: xb, yb', h, ha, hb => by
    simp only [List.cons_append, List.cons.injEq] at h
    obtain ⟨rfl, h2⟩ := h
    have hrec := dash_split xa xb h2
      (fun hm => ha (List.mem_cons_of_mem _ hm))
      (fun hm => hb (List.mem_cons_of_mem _ hm))
    exact ⟨by rw [hrec.1], hrec.2⟩

/-! ### The chunking helper -/

theorem chunksListGo_join (l : List Char) :
    ∀ (ns : List Nat) (acc : Nat), l.length ≤ acc + ns.sum →
      (chunksListGo l acc ns).flatten = l.drop acc := by
  intro ns
  induction ns with
  | nil =>
    intro acc h
    simp only [chunksListGo, List.flatten_nil]
    exact (List.drop_eq_nil_of_le (by simpa using h)).symm
  | cons i rest ih =>
    intro acc h
    simp only [List.sum_cons] at h
    by_cases hacc : acc < l.length
    · simp only [chunksListGo, if_pos hacc, List.flatten_cons]
      rw [ih (acc + i) (by omega)]
      exact List.drop_take_append_drop l acc i
    · simp only [chunksListGo, if_neg hacc]
      exact ih acc (by omega)

theorem chunksList_join (l : List Char) (ns : List Nat) :
    (chunksList l ns).flatten = l := by
  unfold chunksList
  split
  · rw [chunksListGo_join l _ 0 (by simp [List.sum_append])]
    exact List.drop_zero l
  · rename_i hge
    rw [chunksListGo_join l ns 0 (by omega)]
    exact List.drop_zero l

theorem chunksListGo_ne_nil (l : List Char) :
    ∀ (ns : List Nat) (acc : Nat), (∀ i ∈ ns, 0 < i) →
      ∀ c ∈ chunksListGo l acc ns, c ≠ [] := by
  intro ns
  induction ns with
  | nil =>
    intro acc _ c hc
    simp [chunksListGo] at hc
  | cons i rest ih =>
    intro acc hpos c hc
    by_cases hacc : acc < l.length
    · simp only [chunksListGo, if_pos hacc, List.mem_cons] at hc
      rcases hc with rfl | hc
      · intro hnil
        rcases List.take_eq_nil_iff.mp hnil with h0 | h0
        · exact absurd h0.symm (Nat.ne_of_lt (hpos i (List.mem_cons_self i rest)))
        · exact absurd (List.drop_eq_nil_iff.mp h0) (by omega)
      · exact ih (acc + i) (fun j hj => hpos j (List.mem_cons_of_mem i hj)) c hc
    · simp only [chunksListGo, if_neg hacc] at hc
      exact ih acc (fun j hj => hpos j (List.mem_cons_of_mem i hj)) c hc

theorem chunksList_ne_nil (l : List Char) (ns : List Nat)
    (h : ∀ i ∈ ns, 0 < i) : ∀ c ∈ chunksList l ns, c ≠ [] := by
  unfold chunksList
  split
  · rename_i hlt
    apply chunksListGo_ne_nil
    intro i hi
    rcases List.mem_append.mp hi with hi | hi
    · exact h i hi
    · rw [List.mem_singleton.mp hi]
      omega
  · exact chunksListGo_ne_nil l ns 0 h

theorem chunksInt_join (l : List Char) (n : Nat) (h : 0 < n) :
    (chunksInt l n).flatten = l := by
  unfold chunksInt
  split
  · rename_i h'
    rcases h' with h' | h'
    · omega
    · simp [h']
  · rename_i h'
    have h2 : l ≠ [] := fun hl => h' (Or.inr hl)
    have hlen : (l.drop n).length < l.length := by
      have := List.length_pos.mpr h2
      simp only [List.length_drop]
      omega
    simp only [List.flatten_cons, chunksInt_join (l.drop n) n h]
    exact List.take_append_drop n l
termination_by l.length
decreasing_by
  exact hlen

theorem chunksInt_ne_nil (l : List Char) (n : Nat) (h : 0 < n) :
    ∀ c ∈ chunksInt l n, c ≠ [] := by
  intro c hc
  unfold chunksInt at hc
  split at hc
  · simp at hc
  · rename_i h'
    have h2 : l ≠ [] := fun hl => h' (Or.inr hl)
    have hlen : (l.drop n).length < l.length := by
      have := List.length_pos.mpr h2
      simp only [List.length_drop]
      omega
    rcases List.mem_cons.mp hc with rfl | hc
    · intro hnil
      rcases List.take_eq_nil_iff.mp hnil with h0 | h0
      · omega
      · exact h2 h0
    · exact chunksInt_ne_nil (l.drop n) n h c hc
termination_by l.length
decreasing_by
  exact hlen

/-! ### The archive directory builder -/

theorem foldl_append_map_mk (ll : List (List Char)) (s : String) :
    (List.foldl (fun r t => r ++ t) s (ll.map fun l => (⟨l⟩ : String))).data
      = s.data ++ ll.flatten := by
  induction ll generalizing s with
  | nil => simp
  | cons x xs ih =>
    simp only [List.map_cons, List.foldl_cons, List.flatten_cons, ih,
      String.data_append]
    simp [List.append_assoc]

theorem builder_join (sip : SIP) :
    String.join (default_archive_directory_builder sip) = sip.id := by
  apply String.toList_inj.mp
  show (String.join (default_archive_directory_builder sip)).data = sip.id.data
  unfold default_archive_directory_builder String.join
  rw [foldl_append_map_mk]
  simpa using chunksList_join sip.id.data [2, 2]

/-! ### Claim theorems: chunking, builder and configuration -/

/-- C9: concatenating, in order, all chunks produced by `chunks(s, n)`
yields exactly `s` (no characters dropped or duplicated) with every
chunk non-empty, both for a positive integer `n` and for a list of
positive integers `n`, including lists whose sum is smaller or larger
than the length of `s`. -/
theorem chunks_concat_exact :
    (∀ (s : List Char) (n : Nat), 0 < n →
        (chunksInt s n).flatten = s ∧ ∀ c ∈ chunksInt s n, c ≠ []) ∧
      ∀ (s : List Char) (ns : List Nat), (∀ i ∈ ns, 0 < i) →
        (chunksList s ns).flatten = s ∧ ∀ c ∈ chunksList s ns, c ≠ [] :=
  ⟨fun s n h => ⟨chunksInt_join s n h, chunksInt_ne_nil s n h⟩,
   fun s ns h => ⟨chunksList_join s ns, chunksList_ne_nil s ns h⟩⟩

/-- Witness for C9 at concrete inputs: a 7-character string in 3-chunks
and a 3-character string against the oversized size list `[1, 2, 3, 4]`. -/
theorem chunks_concat_exact_witness :
    (chunksInt ['a', 'b', 'c', 'd', 'e', 'f', 'g'] 3).flatten
        = ['a', 'b', 'c', 'd', 'e', 'f', 'g'] ∧
      (chunksList ['1', '2', '3'] [1, 2, 3, 4]).flatten = ['1', '2', '3'] :=
  ⟨(chunks_concat_exact.1 _ 3 (by norm_num)).1,
   (chunks_concat_exact.2 _ [1, 2, 3, 4] (by decide)).1⟩

/-- C3: on the identity `abcd0000-1111-2222-3333-444455556666` the
default builder returns exactly `["ab", "cd",
"0000-1111-2222-3333-444455556666"]`; in general, with the default
chunk sizes `[2, 2]`, it splits the identity into its first 2
characters, the next 2 characters, and the remainder. -/
theorem builder_default_split :
    (default_archive_directory_builder
        ⟨"abcd0000-1111-2222-3333-444455556666", []⟩
      = ["ab", "cd", "0000-1111-2222-3333-444455556666"]) ∧
      ∀ sip : SIP, 4 < sip.id.length →
        default_archive_directory_builder sip
          = [⟨sip.id.data.take 2⟩, ⟨(sip.id.data.drop 2).take 2⟩,
             ⟨sip.id.data.drop 4⟩] := by
  constructor
  · decide
  · intro sip h
    have hlen : sip.id.data.length = sip.id.length := rfl
    unfold default_archive_directory_builder chunksList
    rw [if_pos (by simp only [List.sum_cons, List.sum_nil]; omega)]
    have h0 : 0 < sip.id.data.length := by omega
    have h2 : 0 + 2 < sip.id.data.length := by omega
    have h4 : 0 + 2 + 2 < sip.id.data.length := by omega
    have h5 : (sip.id.data.drop (0 + 2 + 2)).length ≤ sip.id.data.length := by
      simp only [List.length_drop]
      omega
    simp only [chunksListGo, if_pos h0, if_pos h2, if_pos h4,
      if_neg (by omega : ¬0 + 2 + 2 + sip.id.data.length < sip.id.data.length),
      List.take_of_length_le h5, List.drop_zero, List.map_cons, List.map_nil]

/-- Witness for C3's general clause at the concrete 36-character UUID. -/
theorem builder_default_split_witness :
    default_archive_directory_builder
        ⟨"abcd0000-1111-2222-3333-444455556666", []⟩
      = [⟨"abcd0000-1111-2222-3333-444455556666".data.take 2⟩,
         ⟨("abcd0000-1111-2222-3333-444455556666".data.drop 2).take 2⟩,
         ⟨"abcd0000-1111-2222-3333-444455556666".data.drop 4⟩] :=
  builder_default_split.2 _ (by decide)

/-- C4: the concatenation of the path segments returned by
`default_archive_directory_builder` is the SIP identity itself, and
consequently the builder is injective on identities: SIPs with
different identities get different segment lists, hence distinct
archive subdirectories. -/
theorem builder_concat_and_injective :
    (∀ sip : SIP,
        String.join (default_archive_directory_builder sip) = sip.id) ∧
      ∀ s t : SIP, s.id ≠ t.id →
        default_archive_directory_builder s
          ≠ default_archive_directory_builder t :=
  ⟨builder_join, fun s t hne heq =>
    hne (by rw [← builder_join s, ← builder_join t, heq])⟩

/-- Witness for C4 on two concrete SIPs with different identities. -/
theorem builder_concat_and_injective_witness :
    String.join (default_archive_directory_builder ⟨"abcd", []⟩) = "abcd" ∧
      default_archive_directory_builder ⟨"abcd", []⟩
        ≠ default_archive_directory_builder ⟨"abce", []⟩ :=
  ⟨builder_concat_and_injective.1 _,
   builder_concat_and_injective.2 _ _ (by decide)⟩

/-- C7 counterexample: the builder embedded from the source is total
and has no error path at all; on the malformed (non-UUID-shaped)
identity `"not-a-uuid"` it does not fail with `InvalidIdentity` — no
such error exists anywhere in the code — but happily returns ordinary
path segments. -/
theorem builder_malformed_total_cex :
    default_archive_directory_builder ⟨"not-a-uuid", []⟩
      = ["no", "t-", "a-uuid"] := by
  decide

/-- C7 amended: the builder has no failure mode whatsoever: for every
identity string, well-formed or malformed, it succeeds and returns the
ordered list of path segments, whose concatenation is the identity. -/
theorem builder_total_no_failure :
    ∀ sip : SIP, ∃ segs : List String,
      default_archive_directory_builder sip = segs
        ∧ String.join segs = sip.id :=
  fun sip => ⟨_, rfl, builder_join sip⟩

/-- C8: in the default `SIPSTORE_BAGIT_TAGS` exactly the keys
`Bagging-Date`, `Payload-Oxum` and `External-Identifier` carry the
value `None` (computed at write time), in that relative order, and
every other entry carries a static string value. -/
theorem bagit_tags_none_keys :
    ((SIPSTORE_BAGIT_TAGS.filter fun kv => kv.2.isNone).map Prod.fst
        = ["Bagging-Date", "Payload-Oxum", "External-Identifier"]) ∧
      ∀ kv ∈ SIPSTORE_BAGIT_TAGS, kv.2.isNone = false →
        kv.2.isSome = true := by
  decide

/-- C10 (code bug): the default configuration names
`invenio_sipstore.archivers.utils.default_sipfile_name_formatter`, but
no function of that name is defined in
`invenio_sipstore/archivers/utils.py`, so the default formatter path
does not resolve to any of the provided formatter functions. -/
theorem default_formatter_name_not_defined :
    (SIPSTORE_ARCHIVER_SIPFILE_NAME_FORMATTER
        = "invenio_sipstore.archivers.utils."
            ++ "default_sipfile_name_formatter") ∧
      "default_sipfile_name_formatter" ∉ archiversUtilsFunctionNames := by
  decide

/-- C6: `secure_uuid_sipfile_name_formatter` computes each name from
the given file alone (its type consults no sibling list), and any two
files with distinct, equal-length identity strings receive distinct
names, whatever their paths are. -/
theorem uuid_formatter_injective (a b : SIPFile)
    (hne : a.file_id ≠ b.file_id)
    (hlen : a.file_id.length = b.file_id.length) :
    secure_uuid_sipfile_name_formatter a
      ≠ secure_uuid_sipfile_name_formatter b := by
  intro heq
  apply hne
  apply String.toList_inj.mp
  have hd : a.file_id.data ++ '-' :: (secure_filename a.filepath).data
      = b.file_id.data ++ '-' :: (secure_filename b.filepath).data := by
    have := congrArg String.data heq
    simpa [secure_uuid_sipfile_name_formatter] using this
  exact (List.append_inj hd hlen).1

/-- Witness for C6: two concrete files with equal-length distinct
identities and colliding sanitized paths still get distinct names. -/
theorem uuid_formatter_injective_witness :
    secure_uuid_sipfile_name_formatter ⟨"ab", "x/y"⟩
      ≠ secure_uuid_sipfile_name_formatter ⟨"ac", "x/y"⟩ :=
  uuid_formatter_injective _ _ (by decide) (by decide)

/-! ### The secure sibling-aware formatter -/

theorem formatter_of_collide (sip : SIP) (sf : SIPFile)
    (h : 1 < ((List.insertionSort sipLE sip.sip_files).filter fun t =>
        _secure_filename t.filepath == _secure_filename sf.filepath).length) :
    secure_sipfile_name_formatter sip sf
      = Nat.repr (((List.insertionSort sipLE sip.sip_files).filter fun t =>
            _secure_filename t.filepath
              == _secure_filename sf.filepath).indexOf sf + 1)
          ++ "-" ++ _secure_filename sf.filepath := by
  simp only [secure_sipfile_name_formatter]
  rw [if_pos h]

theorem formatter_of_noncollide (sip : SIP) (sf : SIPFile)
    (h : ¬1 < ((List.insertionSort sipLE sip.sip_files).filter fun t =>
        _secure_filename t.filepath == _secure_filename sf.filepath).length) :
    secure_sipfile_name_formatter sip sf
      = if _secure_filename sf.filepath = "" then "-"
        else _secure_filename sf.filepath := by
  simp only [secure_sipfile_name_formatter]
  rw [if_neg h]
  by_cases he : _secure_filename sf.filepath = "" <;> simp [he]

theorem one_lt_length_of_two_mem {α : Type} {l : List α} {a b : α}
    (ha : a ∈ l) (hb : b ∈ l) (hne : a ≠ b) : 1 < l.length := by
  cases l with
  | nil => simp at ha
  | cons x xs =>
    cases xs with
    | nil =>
      simp only [List.mem_singleton] at ha hb
      exact absurd (ha.trans hb.symm) hne
    | cons y ys => simp only [List.length_cons]; omega

theorem name_data (k : Nat) (f : String) :
    (Nat.repr k ++ "-" ++ f).data = (Nat.repr k).data ++ '-' :: f.data := by
  have hdash : ("-" : String).data = ['-'] := rfl
  simp [String.data_append, hdash, List.append_assoc]

theorem numbered_ne_plain (k : Nat) (fa fb : String)
    (hfb : '-' ∉ fb.data) :
    Nat.repr (k + 1) ++ "-" ++ fa ≠ if fb = "" then "-" else fb := by
  intro heq
  have hd := congrArg String.data heq
  rw [name_data] at hd
  by_cases h : fb = ""
  · rw [if_pos h] at hd
    have hd' : (Nat.repr (k + 1)).data ++ '-' :: fa.data = ['-'] := hd
    have hlen := congrArg List.length hd'
    simp only [List.length_append, List.length_cons, List.length_nil] at hlen
    have hpos : 0 < (Nat.repr (k + 1)).data.length :=
      List.length_pos.mpr (repr_data_ne_nil (k + 1))
    omega
  · rw [if_neg h] at hd
    exact hfb (hd ▸ List.mem_append_right _ (List.mem_cons_self '-' fa.data))

theorem plain_eq_plain (fa fb : String) (hfa : '-' ∉ fa.data)
    (hfb : '-' ∉ fb.data)
    (h : (if fa = "" then "-" else fa) = if fb = "" then "-" else fb) :
    fa = fb := by
  by_cases h1 : fa = "" <;> by_cases h2 : fb = ""
  · rw [h1, h2]
  · rw [if_pos h1, if_neg h2] at h
    exact absurd (h ▸ List.mem_cons_self '-' []) hfb
  · rw [if_neg h1, if_pos h2] at h
    exact absurd (h ▸ List.mem_cons_self '-' []) hfa
  · rwa [if_neg h1, if_neg h2] at h

theorem numbered_eq_numbered {ka kb : Nat} {fa fb : String}
    (h : Nat.repr ka ++ "-" ++ fa = Nat.repr kb ++ "-" ++ fb) :
    ka = kb ∧ fa = fb := by
  have hd := congrArg String.data h
  rw [name_data, name_data] at hd
  have hsplit := dash_split _ _ hd (dash_not_mem_repr ka) (dash_not_mem_repr kb)
  exact ⟨repr_inj (String.toList_inj.mp hsplit.1),
    String.toList_inj.mp hsplit.2⟩

/-- C1: on a SIP whose files carry pairwise-distinct stable file
identities, `secure_sipfile_name_formatter` is injective: two distinct
sibling files never receive the identical resolved name. -/
theorem secure_formatter_injective_on_siblings (sip : SIP) (a b : SIPFile)
    (hids : (sip.sip_files.map SIPFile.file_id).Nodup)
    (ha : a ∈ sip.sip_files) (hb : b ∈ sip.sip_files) (hne : a ≠ b) :
    secure_sipfile_name_formatter sip a
      ≠ secure_sipfile_name_formatter sip b := by
  have haS : a ∈ List.insertionSort sipLE sip.sip_files :=
    (List.mem_insertionSort sipLE).mpr ha
  have hbS : b ∈ List.insertionSort sipLE sip.sip_files :=
    (List.mem_insertionSort sipLE).mpr hb
  have haCa : a ∈ (List.insertionSort sipLE sip.sip_files).filter fun t =>
      _secure_filename t.filepath == _secure_filename a.filepath :=
    List.mem_filter.mpr ⟨haS, by simp⟩
  have hbCb : b ∈ (List.insertionSort sipLE sip.sip_files).filter fun t =>
      _secure_filename t.filepath == _secure_filename b.filepath :=
    List.mem_filter.mpr ⟨hbS, by simp⟩
  by_cases heqf : _secure_filename a.filepath = _secure_filename b.filepath
  · -- same sanitized name: both land in the same colliding group
    have hbCa : b ∈ (List.insertionSort sipLE sip.sip_files).filter fun t =>
        _secure_filename t.filepath == _secure_filename a.filepath := by
      rw [heqf]
      exact hbCb
    have hlen : 1 < ((List.insertionSort sipLE sip.sip_files).filter fun t =>
        _secure_filename t.filepath == _secure_filename a.filepath).length :=
      one_lt_length_of_two_mem haCa hbCa hne
    have hlen' : 1 < ((List.insertionSort sipLE sip.sip_files).filter fun t =>
        _secure_filename t.filepath == _secure_filename b.filepath).length := by
      rw [← heqf]
      exact hlen
    rw [formatter_of_collide sip a hlen, formatter_of_collide sip b hlen']
    intro heq
    rw [← heqf] at heq
    have hidx := (numbered_eq_numbered heq).1
    have hia := List.indexOf_lt_length.mpr haCa
    have hib := List.indexOf_lt_length.mpr hbCa
    have ea := List.getElem_indexOf hia
    have eb := List.getElem_indexOf hib
    have hii : ((List.insertionSort sipLE sip.sip_files).filter fun t =>
        _secure_filename t.filepath == _secure_filename a.filepath).indexOf a
          = ((List.insertionSort sipLE sip.sip_files).filter fun t =>
        _secure_filename t.filepath
          == _secure_filename a.filepath).indexOf b := by
      omega
    simp only [hii] at ea
    exact hne (ea.symm.trans eb)
  · -- different sanitized names
    by_cases hca : 1 < ((List.insertionSort sipLE sip.sip_files).filter
        fun t => _secure_filename t.filepath
          == _secure_filename a.filepath).length
      <;> by_cases hcb : 1 < ((List.insertionSort sipLE sip.sip_files).filter
        fun t => _secure_filename t.filepath
          == _secure_filename b.filepath).length
    · rw [formatter_of_collide sip a hca, formatter_of_collide sip b hcb]
      intro heq
      exact heqf (numbered_eq_numbered heq).2
    · rw [formatter_of_collide sip a hca, formatter_of_noncollide sip b hcb]
      exact numbered_ne_plain _ _ _ (dash_not_mem_secure b.filepath)
    · rw [formatter_of_noncollide sip a hca, formatter_of_collide sip b hcb]
      exact fun heq =>
        numbered_ne_plain _ _ _ (dash_not_mem_secure a.filepath) heq.symm
    · rw [formatter_of_noncollide sip a hca, formatter_of_noncollide sip b hcb]
      exact fun heq => heqf (plain_eq_plain _ _
        (dash_not_mem_secure a.filepath) (dash_not_mem_secure b.filepath) heq)

/-- Witness for C1: two siblings whose paths `.x` and `x` sanitize to
the same string still receive distinct names. -/
theorem secure_formatter_injective_witness :
    secure_sipfile_name_formatter ⟨"u", [⟨"a", ".x"⟩, ⟨"b", "x"⟩]⟩ ⟨"a", ".x"⟩
      ≠ secure_sipfile_name_formatter ⟨"u", [⟨"a", ".x"⟩, ⟨"b", "x"⟩]⟩
          ⟨"b", "x"⟩ :=
  secure_formatter_injective_on_siblings _ _ _ (by decide) (by decide)
    (by decide) (by decide)

theorem sorted_sipLT_of_nodup {l : List SIPFile} (hs : List.Sorted sipLE l)
    (hn : (l.map SIPFile.file_id).Nodup) : List.Sorted sipLT l := by
  have hp : l.Pairwise fun a b => a.file_id ≠ b.file_id :=
    List.pairwise_map.mp hn
  exact (hs.and hp).imp fun h => ⟨h.1, h.2⟩

theorem nodup_ids_filter_insertionSort (l : List SIPFile)
    (hn : (l.map SIPFile.file_id).Nodup) (p : SIPFile → Bool) :
    (((List.insertionSort sipLE l).filter p).map SIPFile.file_id).Nodup := by
  have h1 : ((List.insertionSort sipLE l).map SIPFile.file_id).Nodup :=
    ((List.perm_insertionSort sipLE l).map SIPFile.file_id).nodup_iff.mpr hn
  exact List.Nodup.sublist
    ((List.filter_sublist (List.insertionSort sipLE l)).map SIPFile.file_id) h1

/-- Python's stable sort of the siblings commutes with selecting the
colliding siblings: filtering the sorted sibling list (as the code
does) equals sorting the filtered list (as the specification describes
the colliding group), as long as the file identities are pairwise
distinct. -/
theorem filter_insertionSort_comm (l : List SIPFile)
    (hn : (l.map SIPFile.file_id).Nodup) (p : SIPFile → Bool) :
    (List.insertionSort sipLE l).filter p
      = List.insertionSort sipLE (l.filter p) := by
  have hperm : List.Perm ((List.insertionSort sipLE l).filter p)
      (List.insertionSort sipLE (l.filter p)) :=
    ((List.perm_insertionSort sipLE l).filter p).trans
      (List.perm_insertionSort sipLE (l.filter p)).symm
  have hs1 : List.Sorted sipLT ((List.insertionSort sipLE l).filter p) :=
    sorted_sipLT_of_nodup
      (List.Sorted.filter p (List.sorted_insertionSort sipLE l))
      (nodup_ids_filter_insertionSort l hn p)
  have hs2 : List.Sorted sipLT (List.insertionSort sipLE (l.filter p)) := by
    apply sorted_sipLT_of_nodup (List.sorted_insertionSort sipLE (l.filter p))
    have hsubl : ((l.filter p).map SIPFile.file_id).Nodup :=
      List.Nodup.sublist ((List.filter_sublist l).map SIPFile.file_id) hn
    exact ((List.perm_insertionSort sipLE
      (l.filter p)).map SIPFile.file_id).nodup_iff.mpr hsubl
  exact List.eq_of_perm_of_sorted hperm hs1 hs2

/-- C2: when at least two sibling files of a SIP with pairwise-distinct
file identities sanitize to the same string, each receives the
sanitized string with a 1-based ordinal and a dash prepended, the
ordinal being the file's position among the colliding siblings sorted
by file identity; a file colliding with no sibling gets no ordinal (the
sanitized name itself, or the placeholder when it is empty). -/
theorem secure_formatter_ordinal_rule (sip : SIP) (sf : SIPFile)
    (hids : (sip.sip_files.map SIPFile.file_id).Nodup)
    (hmem : sf ∈ sip.sip_files) :
    (2 ≤ (List.insertionSort sipLE (sip.sip_files.filter fun t =>
          _secure_filename t.filepath
            == _secure_filename sf.filepath)).length →
        secure_sipfile_name_formatter sip sf
          = Nat.repr ((List.insertionSort sipLE (sip.sip_files.filter
                fun t => _secure_filename t.filepath
                  == _secure_filename sf.filepath)).indexOf sf + 1)
              ++ "-" ++ _secure_filename sf.filepath) ∧
      ((List.insertionSort sipLE (sip.sip_files.filter fun t =>
            _secure_filename t.filepath
              == _secure_filename sf.filepath)).length ≤ 1 →
        secure_sipfile_name_formatter sip sf
          = if _secure_filename sf.filepath = "" then "-"
            else _secure_filename sf.filepath) := by
  have hcomm := filter_insertionSort_comm sip.sip_files hids
    fun t => _secure_filename t.filepath == _secure_filename sf.filepath
  constructor
  · intro h2
    rw [← hcomm] at h2 ⊢
    exact formatter_of_collide sip sf (by omega)
  · intro h1
    rw [← hcomm] at h1
    exact formatter_of_noncollide sip sf (by omega)

/-- Witness for C2: the first of two colliding siblings (paths `.x` and
`x` both sanitize to `x`) receives the ordinal name `1-x`. -/
theorem secure_formatter_ordinal_rule_witness :
    secure_sipfile_name_formatter ⟨"u", [⟨"a", ".x"⟩, ⟨"b", "x"⟩]⟩
        ⟨"a", ".x"⟩ = "1-x" :=
  ((secure_formatter_ordinal_rule ⟨"u", [⟨"a", ".x"⟩, ⟨"b", "x"⟩]⟩
      ⟨"a", ".x"⟩ (by decide) (by decide)).1 (by decide)).trans (by decide)

/-- C5 counterexample: `"?"` and `"!"` both sanitize to the empty
string; in a SIP holding both files the formatter returns `"1-"` for
the first — not the placeholder `"-"` the claim promises for every
file whose path sanitizes to the empty string. -/
theorem secure_formatter_empty_cex :
    _secure_filename "?" = "" ∧ _secure_filename "!" = "" ∧
      secure_sipfile_name_formatter ⟨"u", [⟨"a", "?"⟩, ⟨"b", "!"⟩]⟩
        ⟨"a", "?"⟩ = "1-" := by
  decide

/-- C5 amended: a SIPFile whose path sanitizes to the empty string is
resolved to the placeholder `"-"` provided no other sibling of its SIP
also sanitizes to the empty string. -/
theorem secure_formatter_empty_placeholder (sip : SIP) (sf : SIPFile)
    (hmem : sf ∈ sip.sip_files)
    (hempty : _secure_filename sf.filepath = "")
    (hunique : (sip.sip_files.filter fun t =>
        _secure_filename t.filepath == "").length ≤ 1) :
    secure_sipfile_name_formatter sip sf = "-" := by
  have hcode : ((List.insertionSort sipLE sip.sip_files).filter fun t =>
      _secure_filename t.filepath == _secure_filename sf.filepath).length
        ≤ 1 := by
    rw [hempty,
      ((List.perm_insertionSort sipLE sip.sip_files).filter _).length_eq]
    exact hunique
  rw [formatter_of_noncollide sip sf (by omega), if_pos hempty]

/-- Witness for the amended C5: a lone empty-sanitizing file next to a
non-colliding sibling resolves to `"-"`. -/
theorem secure_formatter_empty_placeholder_witness :
    secure_sipfile_name_formatter ⟨"u", [⟨"a", "?"⟩, ⟨"b", "x"⟩]⟩
        ⟨"a", "?"⟩ = "-" :=
  secure_formatter_empty_placeholder _ _ (by decide) (by decide) (by decide)

end SIPStore

